import Mathlib

/-!
Verification of the physical query-plan lowering pass of the sneller `plan`
package (file with `toTree`, `walkBuild`, `lowerLimit`, `lowerOrder`,
`walker.put`, `input.merge`, `doSplit`, `lowerOutputPart`, `lowerOutputIndex`).

The embedding translates the Go source into pure Lean definitions.  State
mutation through pointers (the walker input list, cached table handles,
fusion-by-mutation of physical operators) is made explicit by threading the
mutated value through return types.  Types that the source file only uses but
does not define (the `expr` and `pir` packages, the physical operator structs,
`Hints`, `Input`, `Node`, `Tree`) are modelled from the specification, as
noted in their doc comments.
-/

set_option maxHeartbeats 1600000

deriving instance DecidableEq for Except

namespace PlanLower

/-- Modelled from the spec: expression nodes of the `expr` package (outside
the sources).  Only the shape information the lowering pass inspects is kept:
the five literal kinds recognized by constant pruning in `lowerOrder`
(`expr.Bool`, `expr.Integer`, `expr.Rational`, `expr.Float`, `expr.String`),
`expr.Star`, `expr.Path`, `expr.Unpivot`, and a catch-all constructor `Misc`
for every other expression form.  Rational and float literals are never
computed with by the lowering pass, only classified, so their payloads are
abstract identifiers. -/
inductive Expr where
  | BoolLit (b : Bool)
  | IntegerLit (n : Int)
  | RationalLit (id : Int)
  | FloatLit (id : Int)
  | StringLit (s : String)
  | Star
  | Path (components : List String)
  | Unpivot (id : Nat)
  | Misc (id : Nat)
deriving DecidableEq, Repr

/-- Modelled from the spec: a table reference (`expr.Table`), an expression
with an optional explicit binding name, comparable for structural equality. -/
structure Table where
  e : Expr
  asName : Option String
deriving DecidableEq, Repr

/-- Modelled from the spec: the `Table.Equals` structural-equality test used
by `input.merge`. -/
def Table.Equals (a b : Table) : Bool :=
  decide (a = b)

/-- Modelled from the spec: `expr.Equal` on optional filter predicates,
structural equality with two absent predicates equal. -/
def exprEqual (a b : Option Expr) : Bool :=
  decide (a = b)

/-- Modelled from the spec: `expr.Equivalent`, semantic equivalence of two
expressions; the sources outside this repository slice decide it, so it is
modelled as structural equality, which the claims about `lowerOrder` do not
depend on beyond decidability. -/
def Equivalent (a b : Expr) : Bool :=
  decide (a = b)

/-- Modelled from the spec: `expr.IsIdentifier ex name` holds when `ex` is
exactly the single-component path `name`; `lowerOrder` uses it to match an
order column against aggregate and group-by result names. -/
def IsIdentifier (e : Expr) (name : String) : Bool :=
  decide (e = .Path [name])

/-- Modelled from the spec: a binding (`expr.Binding`): an expression bound to
a result name; `Result()` is the stored name. -/
structure Binding where
  e : Expr
  result : String
deriving DecidableEq, Repr

/-- Modelled from the spec: one entry of `vm.Aggregation`: an aggregate
expression (with optional per-row filter and an inner operand) bound to a
result name.  `iscountstar` inspects `filterE` and `inner`. -/
structure AggBinding where
  filterE : Option Expr
  inner : Expr
  result : String
deriving DecidableEq, Repr

/-- Modelled from the spec: `vm.Aggregation`, an ordered aggregate list. -/
abbrev Aggregation := List AggBinding

/-- Modelled from the spec: access hints attached to an interned input table:
optional filter predicate, projected field set, and the all-fields flag. -/
structure Hints where
  filter : Option Expr
  fields : List String
  allFields : Bool
deriving DecidableEq, Repr

/-- Modelled from the spec: an environment-provided table handle; it may be a
compound handle (`tableHandles`) wrapping an ordered sequence of
sub-handles. -/
inductive TableHandle where
  | base (id : Nat)
  | compound (hs : List TableHandle)
deriving Repr

mutual

/-- Boolean structural equality on table handles. -/
def TableHandle.beq : TableHandle → TableHandle → Bool
  | .base a, .base b => a == b
  | .compound hs, .compound ks => TableHandle.beqList hs ks
  | _, _ => false

/-- Boolean structural equality on lists of table handles. -/
def TableHandle.beqList : List TableHandle → List TableHandle → Bool
  | [], [] => true
  | a :: as, b :: bs => TableHandle.beq a b && TableHandle.beqList as bs
  | _, _ => false

end

mutual

theorem TableHandle.beq_iff : ∀ (a b : TableHandle), TableHandle.beq a b = true ↔ a = b
  | .base x, .base y => by simp [TableHandle.beq]
  | .base _, .compound _ => by simp [TableHandle.beq]
  | .compound _, .base _ => by simp [TableHandle.beq]
  | .compound hs, .compound ks => by
      simp only [TableHandle.beq, TableHandle.compound.injEq]
      exact TableHandle.beqList_iff hs ks

theorem TableHandle.beqList_iff :
    ∀ (hs ks : List TableHandle), TableHandle.beqList hs ks = true ↔ hs = ks
  | [], [] => by simp [TableHandle.beqList]
  | [], _ :: _ => by simp [TableHandle.beqList]
  | _ :: _, [] => by simp [TableHandle.beqList]
  | a :: as, b :: bs => by
      simp only [TableHandle.beqList, Bool.and_eq_true, List.cons.injEq]
      exact and_congr (TableHandle.beq_iff a b) (TableHandle.beqList_iff as bs)

end

instance : DecidableEq TableHandle := fun a b =>
  decidable_of_iff _ (TableHandle.beq_iff a b)

/-- Recognizer for non-compound handles (everything except `tableHandles`). -/
def TableHandle.isBase : TableHandle → Bool
  | .base _ => true
  | .compound _ => false

/-- Modelled from the spec: `Subtables` is an ordered sequence supporting
length and append; its elements are abstract. -/
abbrev Subtables := List Nat

/-- Error values produced by the lowering pass.  The Go code distinguishes
rejections produced by `reject`, which wrap the sentinel `ErrNotSupported`,
from plain `fmt.Errorf` errors; the constructors keep that distinction, with
one constructor per distinct plain error site and one for errors propagated
from the environment or the splitter. -/
inductive Err where
  | NotSupported (msg : String)
  | CannotOrderBy (e : Expr)
  | DuplicateOrderBy (e : Expr)
  | MissingCapability
  | EnvErr (msg : String)
deriving DecidableEq, Repr

/-- True exactly for errors that wrap the `ErrNotSupported` sentinel, i.e.
those built by `reject`; `errors.Is(err, ErrNotSupported)` in Go. -/
def Err.isNotSupported : Err → Bool
  | .NotSupported _ => true
  | _ => false

/-- Translation of `reject`: an `ErrNotSupported`-wrapping error message. -/
def reject (msg : String) : Err :=
  Err.NotSupported msg

/-- Modelled from the spec: the splitter strategy,
`split(table-expr, handle) -> Subtables | Error`. -/
abbrev Splitter := Expr → TableHandle → Except Err Subtables

/-- Modelled from the spec: an uploader handle; abstract. -/
abbrev UploadFS := Nat

/-- Modelled from the spec: an index signing key; abstract.  The Go method
`Key()` returns a pointer that may be nil, hence `Option Key` below. -/
abbrev Key := Nat

/-- Modelled from the spec: the optional `UploadEnv` capability of an
environment: an uploader method that may return absent, and a signing key
that may be absent. -/
structure UploadEnvCap where
  uploader : Option UploadFS
  key : Option Key

/-- Modelled from the spec: the hosting environment.  `statFn` is the
mandatory stat capability (`stat(table-expr, hints) -> handle | Error`);
`upload` is present exactly when the environment implements the `UploadEnv`
interface. -/
structure Env where
  statFn : Expr → Hints → Except Err TableHandle
  upload : Option UploadEnvCap

/-- Modelled from the spec: an abstract result-schema type tag. -/
abbrev TypeSet := Nat

/-- An entry of a `HashAggregate` order-by list: a column index into the
aggregate list (or `len(agg) + group-index`), with direction flags. -/
structure HashOrder where
  column : Nat
  desc : Bool
  nullsLast : Bool
deriving DecidableEq, Repr

/-- A column of a physical `OrderBy` operator. -/
structure OrderByColumn where
  node : Expr
  desc : Bool
  nullsLast : Bool
deriving DecidableEq, Repr

/-- Modelled from the spec: the physical operators emitted by the lowering
pass.  Every non-terminal operator holds its upstream operator; fields that
the Go code sets by later mutation (`HashAggregate.OrderBy`,
`HashAggregate.Limit`, `OrderBy.Limit`, `OrderBy.Offset`, `Distinct.Limit`)
are explicit constructor arguments, zero or empty when first created. -/
inductive Op where
  | Leaf (inputIx : Nat)
  | Filter (e : Expr) (frm : Op)
  | Project (usingList : List Binding) (frm : Op)
  | Distinct (fields : List Expr) (limit : Int) (frm : Op)
  | SimpleAggregate (outputs : Aggregation) (frm : Op)
  | CountStar (asName : String) (frm : Op)
  | HashAggregate (agg : Aggregation) (groupBy : List Binding)
      (orderBy : List HashOrder) (limit : Int) (frm : Op)
  | OrderBy (columns : List OrderByColumn) (limit : Int) (offset : Int) (frm : Op)
  | Limit (num : Int) (frm : Op)
  | Unnest (pivotField : Expr) (innerProject outerProject : List Binding)
      (innerMatch : Option Expr) (frm : Op)
  | UnionMap (orig : Nat) (sub : Subtables) (frm : Op)
  | OutputPart (basename : String) (store : UploadFS) (frm : Op)
  | OutputIndex (tableE : Expr) (basename : String) (store : UploadFS)
      (key : Option Key) (frm : Op)
  | NoOutput
  | DummyOutput
deriving DecidableEq, Repr

/-- Modelled from the spec: the terminal logical iterator
`IterTable { table, filter?, fields, wildcard }`; `fields` is the value of
the accessor `Fields()` and `wildcard` the value of `Wildcard()`. -/
structure IterTable where
  table : Table
  filter : Option Expr
  fields : List String
  wildcard : Bool
deriving Repr

/-- Modelled from the spec: the cross-join iteration step
`IterValue { value, inner-bind, outer-bind, filter?, wildcard? }`. -/
structure IterValue where
  value : Expr
  filter : Option Expr
  innerBind : List Binding
  outerBind : List Binding
  wildcard : Bool
deriving Repr

/-- A column of a logical `Order` step. -/
structure OrderColumn where
  column : Expr
  desc : Bool
  nullsLast : Bool
deriving DecidableEq, Repr

/-- Sort a list of strings in nondecreasing order (`slices.Sort`). -/
def sortStrings (l : List String) : List String :=
  l.insertionSort (· ≤ ·)

/-- Remove consecutive duplicates, keeping the first of each run
(`slices.Compact`). -/
def compact : List String → List String
  | [] => []
  | [s] => [s]
  | s :: t :: rest =>
      if s = t then compact (t :: rest) else s :: compact (t :: rest)

/-- Translation of `lowerIterValue`: a cross-join iteration becomes an
`Unnest` when the iterated value is a path; wildcards and UNPIVOT forms are
rejected. -/
def lowerIterValue (iv : IterValue) (frm : Op) : Except Err Op :=
  if iv.wildcard then
    .error (reject ("cannot project star from a cross-join"))
  else
    match iv.value with
    | .Path p => .ok (.Unnest (.Path p) iv.innerBind iv.outerBind iv.filter frm)
    | .Unpivot _ => .error (reject ("UNPIVOT is not supported yet"))
    | _ => .error (reject ("cross-join on non-path nor UNPIVOT expression"))

/-- Translation of `lowerFilter`. -/
def lowerFilter (whereE : Expr) (frm : Op) : Except Err Op :=
  .ok (.Filter whereE frm)

/-- Translation of `lowerDistinct`; the `Distinct` operator starts with its
limit field at the Go zero value. -/
def lowerDistinct (columns : List Expr) (frm : Op) : Except Err Op :=
  .ok (.Distinct columns 0 frm)

/-- Translation of `lowerBind`. -/
def lowerBind (bindings : List Binding) (frm : Op) : Except Err Op :=
  .ok (.Project bindings frm)

/-- Translation of `iscountstar`: a single aggregate with no per-row filter
whose inner operand is `expr.Star`. -/
def iscountstar (a : Aggregation) : Bool :=
  match a with
  | [agg] =>
      match agg.filterE with
      | some _ => false
      | none =>
          match agg.inner with
          | .Star => true
          | _ => false
  | _ => false

/-- Translation of `lowerAggregate`.  When `iscountstar` holds the aggregate
list is a singleton, so the `headD` fallback is never taken. -/
def lowerAggregate (agg : Aggregation) (groupBy : Option (List Binding))
    (frm : Op) : Except Err Op :=
  match groupBy with
  | none =>
      if iscountstar agg then
        .ok (.CountStar ((agg.headD { filterE := none, inner := .Star, result := "" }).result) frm)
      else
        .ok (.SimpleAggregate agg frm)
  | some gb => .ok (.HashAggregate agg gb [] 0 frm)

/-- Translation of `lowerLimit`.  The Go function mutates the upstream
operator through a pointer (`f.Limit = int(in.Count)` and friends) and may
then still return an error; the first component of the result is the
upstream operator as it stands after the call, making that mutation
explicit, and the second component is the returned value. -/
def lowerLimit (count offset : Int) (frm : Op) : Op × Except Err Op :=
  if count = 0 then
    (frm, .ok .NoOutput)
  else
    match frm with
    | .HashAggregate agg gb ob _ f =>
        let f' := Op.HashAggregate agg gb ob count f
        if offset ≠ 0 then
          (f', .error (reject ("non-zero OFFSET of hash aggregate result")))
        else
          (f', .ok f')
    | .OrderBy cols _ _ f =>
        let f' := Op.OrderBy cols count offset f
        (f', .ok f')
    | .Distinct fields lim f =>
        if offset ≠ 0 then
          (.Distinct fields lim f, .error (reject ("non-zero OFFSET of distinct result")))
        else
          let f' := Op.Distinct fields count f
          (f', .ok f')
    | other =>
        if offset ≠ 0 then
          (other, .error (reject ("OFFSET without GROUP BY/ORDER BY not implemented")))
        else
          (other, .ok (.Limit count other))

/-- Resolve one order column against a hash aggregate, aggregate result
names first (yielding the aggregate position), then group-by result names
(yielding `len(agg) + group-index`). -/
def resolveOne (agg : Aggregation) (gb : List Binding) (c : OrderColumn) :
    Option HashOrder :=
  match agg.findIdx? (fun a => IsIdentifier c.column a.result) with
  | some i => some { column := i, desc := c.desc, nullsLast := c.nullsLast }
  | none =>
      match gb.findIdx? (fun b => IsIdentifier c.column b.result) with
      | some j => some { column := agg.length + j, desc := c.desc, nullsLast := c.nullsLast }
      | none => none

/-- Resolve every order column in order, failing at the first column that
matches neither the aggregate nor the group-by result names; the error is
the plain `cannot ORDER BY expression` error, not a `reject`. -/
def resolveHashCols (agg : Aggregation) (gb : List Binding) :
    List OrderColumn → Except Err (List HashOrder)
  | [] => .ok []
  | c :: rest =>
      match resolveOne agg gb c with
      | some h =>
          match resolveHashCols agg gb rest with
          | .ok hs => .ok (h :: hs)
          | .error e => .error e
      | none => .error (.CannotOrderBy c.column)

/-- True for the literal expression forms that `lowerOrder` prunes from the
order-column list: literal bool, integer, rational, float and string. -/
def isConstOrderColumn : Expr → Bool
  | .BoolLit _ => true
  | .IntegerLit _ => true
  | .RationalLit _ => true
  | .FloatLit _ => true
  | .StringLit _ => true
  | _ => false

/-- Constant pruning of `lowerOrder`: drop literal order columns, keep the
rest in order. -/
def pruneConstants (cols : List OrderColumn) : List OrderByColumn :=
  cols.filterMap fun c =>
    if isConstOrderColumn c.column then none
    else some { node := c.column, desc := c.desc, nullsLast := c.nullsLast }

/-- Duplicate detection of `lowerOrder`: the first pair `(i, j)` with
`i < j` and equivalent expressions, in lexicographic order of `(i, j)`,
reported by the later column, as in the Go loop. -/
def findDup : List OrderByColumn → Option Expr
  | [] => none
  | c :: rest =>
      match rest.find? (fun d => Equivalent c.node d.node) with
      | some d => some d.node
      | none => findDup rest

/-- Translation of `lowerOrder`: a hash-aggregate upstream absorbs the order
columns by name resolution; otherwise an `OrderBy` is materialized after
constant pruning and duplicate detection, or the upstream is returned
unchanged when no column survives. -/
def lowerOrder (cols : List OrderColumn) (frm : Op) : Except Err Op :=
  match frm with
  | .HashAggregate agg gb ob lim f =>
      match resolveHashCols agg gb cols with
      | .ok hs => .ok (.HashAggregate agg gb (ob ++ hs) lim f)
      | .error e => .error e
  | _ =>
      let columns := pruneConstants cols
      if columns.isEmpty then
        .ok frm
      else
        match findDup columns with
        | some e => .error (.DuplicateOrderBy e)
        | none => .ok (.OrderBy columns 0 0 frm)

/-- Translation of `lowerOutputPart`: requires the `UploadEnv` capability
and a non-absent uploader; otherwise the `cannot handle INTO` error. -/
def lowerOutputPart (basename : String) (env : Env) (inputOp : Op) :
    Except Err Op :=
  match env.upload with
  | some e =>
      match e.uploader with
      | some up => .ok (.OutputPart basename up inputOp)
      | none => .error .MissingCapability
  | none => .error .MissingCapability

/-- Translation of `lowerOutputIndex`: requires the `UploadEnv` capability
and a non-absent uploader; the signing key is read from the environment and
stored without being checked for absence. -/
def lowerOutputIndex (tableE : Expr) (basename : String) (env : Env)
    (inputOp : Op) : Except Err Op :=
  match env.upload with
  | some e =>
      match e.uploader with
      | some up => .ok (.OutputIndex tableE basename up e.key inputOp)
      | none => .error .MissingCapability
  | none => .error .MissingCapability

mutual

/-- Translation of `doSplit`: compound handles are split member-wise,
recursively, and the results are appended in order; any other handle is
passed to the splitter directly. -/
def doSplit (s : Splitter) (tbl : Expr) : TableHandle → Except Err Subtables
  | .compound hs => doSplitList s tbl hs
  | th => s tbl th

/-- The loop of `doSplit` over the sub-handles of a compound handle. -/
def doSplitList (s : Splitter) (tbl : Expr) : List TableHandle → Except Err Subtables
  | [] => .ok []
  | h :: rest =>
      match doSplit s tbl h with
      | .error e => .error e
      | .ok sub =>
          match doSplitList s tbl rest with
          | .error e => .error e
          | .ok out => .ok (sub ++ out)

end

/-- Translation of the `input` record: one interned logical table reference
with its hint union and the lazily cached statted handle. -/
structure input where
  table : Table
  hints : Hints
  handle : Option TableHandle
deriving DecidableEq, Repr

/-- Translation of `input.merge`.  The Go method mutates its receiver and
returns a bool; here a successful merge returns the updated receiver. -/
def input.merge (i other : input) : Option input :=
  if !(i.table.Equals other.table) then
    none
  else if !(exprEqual i.hints.filter other.hints.filter) then
    none
  else
    let i1 : input := { i with handle := none }
    if i1.hints.allFields then
      some i1
    else if other.hints.allFields then
      some { i1 with hints := { i1.hints with fields := [], allFields := true } }
    else
      some { i1 with hints := { i1.hints with
        fields := compact (sortStrings (i1.hints.fields ++ other.hints.fields)) } }

/-- Translation of `input.stat`: return the cached handle if present,
otherwise stat through the environment and cache the result.  The package
helper `stat(env, tbl, hints)` is outside the sources and is modelled from
the spec as the mandatory `statFn` capability of the environment. -/
def input.stat (i : input) (env : Env) : Except Err (TableHandle × input) :=
  match i.handle with
  | some th => .ok (th, i)
  | none =>
      match env.statFn i.table.e i.hints with
      | .error e => .error e
      | .ok th => .ok (th, { i with handle := some th })

/-- Modelled from the spec: a finalized plan input, the
`(table-expr, handle)` pair kept by a plan node. -/
structure Input where
  table : Table
  handle : TableHandle
deriving DecidableEq, Repr

/-- Translation of `input.finish`: stat and pair the table with its
handle. -/
def input.finish (i : input) (env : Env) : Except Err Input :=
  match i.stat env with
  | .error e => .error e
  | .ok (th, _) => .ok { table := i.table, handle := th }

/-- Translation of the `walker`: the per-scope lowering state, an
environment, a splitter and the interned input list. -/
structure walker where
  env : Env
  split : Splitter
  inputs : List input

/-- The scan of `walker.put` over the current input list: the first entry
whose `merge` accepts the fresh input is replaced by the merged entry and
its index is returned. -/
def putAux (fresh : input) : List input → Option (Nat × List input)
  | [] => none
  | i :: rest =>
      match i.merge fresh with
      | some i' => some (0, i' :: rest)
      | none =>
          match putAux fresh rest with
          | some (n, rest') => some (n + 1, i :: rest')
          | none => none

/-- The fresh `input` record that `walker.put` builds from a logical
iterator: the table, its filter, its referenced fields and the wildcard
flag. -/
def freshInput (it : IterTable) : input :=
  { table := it.table,
    hints := { filter := it.filter, fields := it.fields, allFields := it.wildcard },
    handle := none }

/-- Translation of `walker.put`: return the index of the first existing
input that merges with the fresh one, appending the fresh input at index
`len(inputs)` when none accepts it. -/
def walker.put (w : walker) (it : IterTable) : Nat × walker :=
  match putAux (freshInput it) w.inputs with
  | some (n, l) => (n, { w with inputs := l })
  | none => (w.inputs.length, { w with inputs := w.inputs ++ [freshInput it] })

/-- Stat the interned input at an index, caching the handle in place, as
`w.inputs[input].stat(w.env)` does through the slice element pointer. -/
def walker.statAt (w : walker) (ix : Nat) : Except Err (TableHandle × walker) :=
  match w.inputs[ix]? with
  | none => .error (.EnvErr ("input index out of range"))
  | some i =>
      match i.stat w.env with
      | .error e => .error e
      | .ok (th, i') => .ok (th, { w with inputs := w.inputs.set ix i' })

/-- The loop of `walker.finish` over the interned inputs. -/
def finishList (env : Env) : List input → Except Err (List Input)
  | [] => .ok []
  | i :: rest =>
      match i.finish env with
      | .error e => .error e
      | .ok fin =>
          match finishList env rest with
          | .error e => .error e
          | .ok rest' => .ok (fin :: rest')

/-- Translation of `walker.finish`: finalize every interned input in
order. -/
def walker.finish (w : walker) : Except Err (List Input) :=
  finishList w.env w.inputs

/-- Modelled from the spec: the logical steps (`pir.Step`).  Every
non-terminal step carries its single upstream step, as `pir.Input` returns
it.  `lowerUnionMap` reads only `in.Child.Final()` from the child trace of a
`UnionMap`, so the constructor stores that final step directly; the
correlated sub-traces (`Replacements`) live on `Trace` below. -/
inductive Step where
  | IterTableS (it : IterTable)
  | NoOutputS
  | DummyOutputS
  | UnionMapS (inner : IterTable) (childFinal : Step)
  | IterValueS (iv : IterValue) (par : Step)
  | FilterS (whereE : Expr) (par : Step)
  | DistinctS (columns : List Expr) (par : Step)
  | BindS (bindings : List Binding) (par : Step)
  | AggregateS (agg : Aggregation) (groupBy : Option (List Binding)) (par : Step)
  | LimitS (count offset : Int) (par : Step)
  | OrderS (columns : List OrderColumn) (par : Step)
  | OutputIndexS (tableE : Expr) (basename : String) (par : Step)
  | OutputPartS (basename : String) (par : Step)
deriving Repr

/-- Translation of `walker.walkBuild`: terminal steps intern their table (an
`IterTable` also wraps itself in a `Filter` when it carries one); a
`UnionMap` runs the split driver (the body of `walker.lowerUnionMap`,
written inline here so that the recursion is structural; the named wrapper
is defined just below); every other step lowers its upstream first and then
dispatches on the step kind. -/
def walker.walkBuild (w : walker) : Step → Except Err (Op × walker)
  | .IterTableS it =>
      let p := w.put it
      let out : Op :=
        match it.filter with
        | some f => .Filter f (.Leaf p.1)
        | none => .Leaf p.1
      .ok (out, p.2)
  | .NoOutputS => .ok (.NoOutput, w)
  | .DummyOutputS => .ok (.DummyOutput, w)
  | .UnionMapS inner childFinal =>
      let p := w.put inner
      (match walker.walkBuild p.2 childFinal with
      | .error e => .error e
      | .ok (sub, w2) =>
          match w2.statAt p.1 with
          | .error e => .error e
          | .ok (handle, w3) =>
              match doSplit w3.split inner.table.e handle with
              | .error e => .error e
              | .ok tbls =>
                  if tbls.length = 0 then .ok (.NoOutput, w3)
                  else .ok (.UnionMap p.1 tbls sub, w3))
  | .IterValueS iv par =>
      match walker.walkBuild w par with
      | .error e => .error e
      | .ok (inp, w') =>
          match lowerIterValue iv inp with
          | .error e => .error e
          | .ok op => .ok (op, w')
  | .FilterS whereE par =>
      match walker.walkBuild w par with
      | .error e => .error e
      | .ok (inp, w') =>
          match lowerFilter whereE inp with
          | .error e => .error e
          | .ok op => .ok (op, w')
  | .DistinctS columns par =>
      match walker.walkBuild w par with
      | .error e => .error e
      | .ok (inp, w') =>
          match lowerDistinct columns inp with
          | .error e => .error e
          | .ok op => .ok (op, w')
  | .BindS bindings par =>
      match walker.walkBuild w par with
      | .error e => .error e
      | .ok (inp, w') =>
          match lowerBind bindings inp with
          | .error e => .error e
          | .ok op => .ok (op, w')
  | .AggregateS agg groupBy par =>
      match walker.walkBuild w par with
      | .error e => .error e
      | .ok (inp, w') =>
          match lowerAggregate agg groupBy inp with
          | .error e => .error e
          | .ok op => .ok (op, w')
  | .LimitS count offset par =>
      match walker.walkBuild w par with
      | .error e => .error e
      | .ok (inp, w') =>
          match (lowerLimit count offset inp).2 with
          | .error e => .error e
          | .ok op => .ok (op, w')
  | .OrderS columns par =>
      match walker.walkBuild w par with
      | .error e => .error e
      | .ok (inp, w') =>
          match lowerOrder columns inp with
          | .error e => .error e
          | .ok op => .ok (op, w')
  | .OutputIndexS tableE basename par =>
      match walker.walkBuild w par with
      | .error e => .error e
      | .ok (inp, w') =>
          match lowerOutputIndex tableE basename w.env inp with
          | .error e => .error e
          | .ok op => .ok (op, w')
  | .OutputPartS basename par =>
      match walker.walkBuild w par with
      | .error e => .error e
      | .ok (inp, w') =>
          match lowerOutputPart basename w.env inp with
          | .error e => .error e
          | .ok op => .ok (op, w')

/-- The named split driver, `walker.lowerUnionMap`; its body is the
`UnionMapS` case of `walker.walkBuild`. -/
def walker.lowerUnionMap (w : walker) (inner : IterTable) (childFinal : Step) :
    Except Err (Op × walker) :=
  walker.walkBuild w (.UnionMapS inner childFinal)

/-- Modelled from the spec: a logical trace: its final step, its ordered
correlated sub-traces (`Replacements`), the final bindings, and the trace
typing oracle `TypeOf` used by the result schema. -/
inductive Trace where
  | mk (final : Step) (replacements : List Trace)
       (finalBindings : List Binding) (typeOf : Expr → TypeSet)

/-- The final step of a trace. -/
def Trace.final : Trace → Step
  | .mk f _ _ _ => f

/-- The correlated sub-traces of a trace. -/
def Trace.replacements : Trace → List Trace
  | .mk _ r _ _ => r

/-- Translation of `Result`: a `(field, type)` pair of the result schema. -/
structure Result where
  name : String
  type : TypeSet
deriving DecidableEq, Repr

/-- Translation of `ResultSet`: an ordered list of results. -/
abbrev ResultSet := List Result

/-- Translation of `results`: the result schema of a trace, one entry per
final binding; empty bindings yield an empty schema. -/
def results (tr : Trace) : ResultSet :=
  match tr with
  | .mk _ _ fb t =>
      if fb.isEmpty then []
      else fb.map fun b => { name := b.result, type := t b.e }

/-- Modelled from the spec: a plan node: operator, result schema, child
sub-plans, and the finalized input list of the scope its sub-traces were
lowered in. -/
inductive Node where
  | mk (op : Op) (outputType : ResultSet) (children : List Node) (inputs : List Input)

/-- The operator of a plan node. -/
def Node.op : Node → Op
  | .mk o _ _ _ => o

/-- The result schema of a plan node. -/
def Node.outputType : Node → ResultSet
  | .mk _ t _ _ => t

/-- The child sub-plans of a plan node. -/
def Node.children : Node → List Node
  | .mk _ _ c _ => c

/-- The finalized inputs of a plan node. -/
def Node.inputs : Node → List Input
  | .mk _ _ _ i => i

mutual

/-- Translation of `walker.toNode`: lower the final step in the caller
scope, then build every correlated sub-trace with one fresh walker scope
shared by all of them, and finalize the node inputs from that shared
scope. -/
def walker.toNode (w : walker) (tr : Trace) : Except Err (Node × walker) :=
  match tr with
  | .mk final repls fb t =>
      match walker.walkBuild w final with
      | .error e => .error e
      | .ok (op, w') =>
          match walker.toNodeList { env := w.env, split := w.split, inputs := [] } repls with
          | .error e => .error e
          | .ok (children, sub') =>
              match sub'.finish with
              | .error e => .error e
              | .ok inputs =>
                  .ok (Node.mk op (results (.mk final repls fb t)) children inputs, w')

/-- The loop of `walker.toNode` over the sub-traces, threading the shared
fresh walker through the children in order. -/
def walker.toNodeList (w : walker) : List Trace → Except Err (List Node × walker)
  | [] => .ok ([], w)
  | tr :: rest =>
      match walker.toNode w tr with
      | .error e => .error e
      | .ok (n, w') =>
          match walker.toNodeList w' rest with
          | .error e => .error e
          | .ok (ns, w'') => .ok (n :: ns, w'')

end

/-- Modelled from the spec: the plan tree: the root node and the top-level
finalized inputs of the root trace scope. -/
structure Tree where
  root : Node
  inputs : List Input

/-- Translation of `toTree`: build the root node in a fresh root scope and
finalize the top-level inputs from it. -/
def toTree (tr : Trace) (env : Env) (split : Splitter) : Except Err Tree :=
  let w : walker := { env := env, split := split, inputs := [] }
  match w.toNode tr with
  | .error e => .error e
  | .ok (root, w') =>
      match w'.finish with
      | .error e => .error e
      | .ok inputs => .ok { root := root, inputs := inputs }

mutual

/-- Formalization of the claim C1 description of the tree builder, written
from the claim words rather than from the source, for comparison with
`walker.toNode`: every correlated sub-trace is lowered in its own fresh
walker scope, so interning is never shared across sibling sub-traces; each
per-sub-trace scope is finalized separately and the node inputs are the
in-order concatenation of those per-sub-trace finalized scopes. -/
def toNodePerSub (w : walker) (tr : Trace) : Except Err (Node × walker) :=
  match tr with
  | .mk final repls fb t =>
      match walker.walkBuild w final with
      | .error e => .error e
      | .ok (op, w') =>
          match toNodePerSubList w.env w.split repls with
          | .error e => .error e
          | .ok (children, inputs) =>
              .ok (Node.mk op (results (.mk final repls fb t)) children inputs, w')

/-- The per-sub-trace loop of `toNodePerSub`: a fresh walker scope per
sub-trace, finalized immediately after that sub-trace alone. -/
def toNodePerSubList (env : Env) (split : Splitter) :
    List Trace → Except Err (List Node × List Input)
  | [] => .ok ([], [])
  | tr :: rest =>
      match toNodePerSub { env := env, split := split, inputs := [] } tr with
      | .error e => .error e
      | .ok (n, sub') =>
          match sub'.finish with
          | .error e => .error e
          | .ok ins =>
              match toNodePerSubList env split rest with
              | .error e => .error e
              | .ok (ns, inss) => .ok (n :: ns, ins ++ inss)

end

/-- The claim-C1 variant of `toTree`, built on `toNodePerSub`. -/
def toTreePerSub (tr : Trace) (env : Env) (split : Splitter) : Except Err Tree :=
  let w : walker := { env := env, split := split, inputs := [] }
  match toNodePerSub w tr with
  | .error e => .error e
  | .ok (root, w') =>
      match w'.finish with
      | .error e => .error e
      | .ok inputs => .ok { root := root, inputs := inputs }

/-- True exactly for `HashAggregate` operators. -/
def Op.isHashAggregate : Op → Bool
  | .HashAggregate _ _ _ _ _ => true
  | _ => false

/-- True exactly for `OrderBy` operators. -/
def Op.isOrderBy : Op → Bool
  | .OrderBy _ _ _ _ => true
  | _ => false

/-- True exactly for `Distinct` operators. -/
def Op.isDistinct : Op → Bool
  | .Distinct _ _ _ => true
  | _ => false

/-- Two interned inputs are mergeable when their table expressions and
their filter predicates are structurally equal; this is exactly the
condition `input.merge` accepts. -/
def mergeable (a b : input) : Prop :=
  a.table = b.table ∧ a.hints.filter = b.hints.filter

instance (a b : input) : Decidable (mergeable a b) := by
  unfold mergeable; infer_instance

/-- The interning invariant of a walker scope: no two interned inputs share
both table expression and filter predicate. -/
def internedOK (l : List input) : Prop :=
  l.Pairwise fun a b => ¬ mergeable a b

instance (l : List input) : Decidable (internedOK l) := by
  unfold internedOK; infer_instance

/-! Concrete fixtures shared by witnesses and counterexamples. -/

/-- A minimal environment: every stat succeeds with one base handle, no
upload capability. -/
def exEnv : Env := { statFn := fun _ _ => .ok (.base 0), upload := none }

/-- A splitter producing one subtable for any handle. -/
def exSplit : Splitter := fun _ _ => .ok [1]

/-- A base table named `t`. -/
def exTableT : Table := { e := .Path ["t"], asName := none }

/-- A base table named `u`. -/
def exTableU : Table := { e := .Path ["u"], asName := none }

/-- A plain logical iterator over table `t`. -/
def exItT : IterTable := { table := exTableT, filter := none, fields := [], wildcard := false }

/-- A plain logical iterator over table `u`. -/
def exItU : IterTable := { table := exTableU, filter := none, fields := [], wildcard := false }

/-- A hash aggregate computing one aggregate named `n` grouped by `k`. -/
def exHashAgg : Op :=
  .HashAggregate [{ filterE := none, inner := .Star, result := "n" }]
    [{ e := .Path ["k"], result := "k" }] [] 0 (.Leaf 0)

/-- An environment with an uploader but no signing key. -/
def envNoKey : Env :=
  { statFn := fun _ _ => .ok (.base 0),
    upload := some { uploader := some 7, key := none } }

/-- Claim C5: for every Limit step whose count equals 0, regardless of the
upstream operator and regardless of the offset value, lowering returns the
NoOutput operator and no error. -/
theorem claimC5 (offset : Int) (frm : Op) :
    (lowerLimit 0 offset frm).2 = .ok .NoOutput := by
  simp [lowerLimit]

/-- Claim C4: for every Limit step with positive count: a HashAggregate
upstream absorbs the count and rejects a non-zero offset; an OrderBy
upstream absorbs both count and offset and is returned without a wrapping
Limit; a Distinct upstream rejects a non-zero offset and otherwise absorbs
the count; any other upstream rejects a non-zero offset and is otherwise
wrapped in a new Limit operator; every rejection wraps the
`ErrNotSupported` sentinel. -/
theorem claimC4 (count offset : Int) (hc : 0 < count) :
    (∀ agg gb ob lim f,
        (lowerLimit count offset (.HashAggregate agg gb ob lim f)).2 =
          if offset = 0 then .ok (.HashAggregate agg gb ob count f)
          else .error (reject ("non-zero OFFSET of hash aggregate result"))) ∧
    (∀ cols lim off f,
        (lowerLimit count offset (.OrderBy cols lim off f)).2 =
          .ok (.OrderBy cols count offset f)) ∧
    (∀ fields lim f,
        (lowerLimit count offset (.Distinct fields lim f)).2 =
          if offset = 0 then .ok (.Distinct fields count f)
          else .error (reject ("non-zero OFFSET of distinct result"))) ∧
    (∀ frm, frm.isHashAggregate = false → frm.isOrderBy = false →
        frm.isDistinct = false →
        (lowerLimit count offset frm).2 =
          if offset = 0 then .ok (.Limit count frm)
          else .error (reject ("OFFSET without GROUP BY/ORDER BY not implemented"))) := by
  have hne : ¬ (count = 0) := by omega
  refine ⟨?_, ?_, ?_, ?_⟩
  · intro agg gb ob lim f
    by_cases ho : offset = 0 <;> simp [lowerLimit, hne, ho]
  · intro cols lim off f
    simp [lowerLimit, hne]
  · intro fields lim f
    by_cases ho : offset = 0 <;> simp [lowerLimit, hne, ho]
  · intro frm h1 h2 h3
    by_cases ho : offset = 0 <;>
      cases frm <;>
        simp_all [lowerLimit, Op.isHashAggregate, Op.isOrderBy, Op.isDistinct]

theorem claimC4_witness :
    (lowerLimit 10 3 (.OrderBy [] 0 0 (.Leaf 0))).2 = .ok (.OrderBy [] 10 3 (.Leaf 0)) :=
  (claimC4 10 3 (by decide)).2.1 [] 0 0 (.Leaf 0)

/-- Claim C10: when a Limit with positive count and non-zero offset is
lowered over a HashAggregate, the rejection is returned only after the
upstream operator has had its limit field set to the count, while a
Distinct upstream is left entirely unchanged by the same rejection; the
first pair component is the upstream operator as it stands after the
call. -/
theorem claimC10 (count offset : Int) (hc : 0 < count) (ho : offset ≠ 0) :
    (∀ agg gb ob lim f,
        lowerLimit count offset (.HashAggregate agg gb ob lim f) =
          (.HashAggregate agg gb ob count f,
           .error (reject ("non-zero OFFSET of hash aggregate result")))) ∧
    (∀ fields lim f,
        lowerLimit count offset (.Distinct fields lim f) =
          (.Distinct fields lim f,
           .error (reject ("non-zero OFFSET of distinct result")))) := by
  have hne : ¬ (count = 0) := by omega
  constructor <;> intros <;> simp [lowerLimit, hne, ho]

theorem claimC10_witness :
    lowerLimit 5 2 (.HashAggregate [] [] [] 0 (.Leaf 0)) =
      (.HashAggregate [] [] [] 5 (.Leaf 0),
       .error (reject ("non-zero OFFSET of hash aggregate result"))) ∧
    lowerLimit 5 2 (.Distinct [] 7 (.Leaf 0)) =
      (.Distinct [] 7 (.Leaf 0),
       .error (reject ("non-zero OFFSET of distinct result"))) :=
  ⟨(claimC10 5 2 (by decide) (by decide)).1 [] [] [] 0 (.Leaf 0),
   (claimC10 5 2 (by decide) (by decide)).2 [] 7 (.Leaf 0)⟩

/-- Claim C9 counterexample: with an environment that has an uploader but
no signing key, lowering an OutputIndex step succeeds and produces an
output operator with an absent key, so a signing key is not required and no
MissingCapability error is raised. -/
theorem claimC9_counterexample :
    (envNoKey.upload.map fun c => c.key) = some none ∧
    lowerOutputIndex (.Path ["out"]) ("base") envNoKey (.Leaf 0) =
      .ok (.OutputIndex (.Path ["out"]) ("base") 7 none (.Leaf 0)) :=
  ⟨rfl, rfl⟩

/-- Claim C9 (amended): OutputPart and OutputIndex both lower successfully
exactly when the environment implements the upload capability and its
uploader is non-absent; when that fails, both reject with the
MissingCapability error and produce no operator; the signing key is copied
from the environment into the OutputIndex operator without being required
to be present. -/
theorem claimC9_amended (tableE : Expr) (basename : String) (env : Env) (inp : Op) :
    ((env.upload.bind fun c => c.uploader) = none →
        lowerOutputPart basename env inp = .error .MissingCapability ∧
        lowerOutputIndex tableE basename env inp = .error .MissingCapability) ∧
    (∀ cap up, env.upload = some cap → cap.uploader = some up →
        lowerOutputPart basename env inp = .ok (.OutputPart basename up inp) ∧
        lowerOutputIndex tableE basename env inp =
          .ok (.OutputIndex tableE basename up cap.key inp)) := by
  constructor
  · intro h
    cases hu : env.upload with
    | none => simp [lowerOutputPart, lowerOutputIndex, hu]
    | some cap =>
        cases hup : cap.uploader with
        | none => simp [lowerOutputPart, lowerOutputIndex, hu, hup]
        | some up => rw [hu] at h; simp [hup] at h
  · intro cap up hu hup
    simp [lowerOutputPart, lowerOutputIndex, hu, hup]

theorem claimC9_amended_witness :
    lowerOutputPart ("base") envNoKey (.Leaf 0) = .ok (.OutputPart ("base") 7 (.Leaf 0)) ∧
    lowerOutputIndex (.Path ["out"]) ("base") envNoKey (.Leaf 0) =
      .ok (.OutputIndex (.Path ["out"]) ("base") 7 none (.Leaf 0)) :=
  (claimC9_amended (.Path ["out"]) ("base") envNoKey (.Leaf 0)).2
    { uploader := some 7, key := none } 7 rfl rfl

/-- Claim C6 counterexample: an order column that matches neither the
aggregate result names nor the group-by result names of the upstream hash
aggregate makes lowering fail with the plain `cannot ORDER BY expression`
error, which does not wrap the `ErrNotSupported` sentinel, so it is not an
UnsupportedQuery rejection. -/
theorem claimC6_counterexample :
    lowerOrder [{ column := .Path ["zz"], desc := false, nullsLast := false }] exHashAgg =
      .error (.CannotOrderBy (.Path ["zz"])) ∧
    Err.isNotSupported (.CannotOrderBy (.Path ["zz"])) = false :=
  ⟨rfl, rfl⟩

/-- The fallback hash-order entry for `Option.getD`; never used when every
column resolves. -/
def defaultHashOrder : HashOrder := { column := 0, desc := false, nullsLast := false }

theorem resolveHashCols_spec (agg : Aggregation) (gb : List Binding) :
    ∀ cols : List OrderColumn,
      resolveHashCols agg gb cols =
        match cols.find? (fun c => (resolveOne agg gb c).isNone) with
        | some c => .error (.CannotOrderBy c.column)
        | none => .ok (cols.map fun c => (resolveOne agg gb c).getD defaultHashOrder)
  | [] => by simp [resolveHashCols]
  | c :: rest => by
      cases hr : resolveOne agg gb c with
      | none => simp [resolveHashCols, hr, List.find?_cons]
      | some h =>
          rw [resolveHashCols, hr, resolveHashCols_spec agg gb rest]
          cases hf : rest.find? (fun c => (resolveOne agg gb c).isNone) with
          | none => simp [List.find?_cons, hr, hf]
          | some c' => simp [List.find?_cons, hr, hf]

/-- Claim C6 (amended): over a HashAggregate upstream, each order column is
resolved by name first against the aggregate result names (column index is
the aggregate position) and then against the group-by result names (column
index is `len(agg)` plus the group position); all resolved entries are
appended to the order-by list of the same returned HashAggregate; if some
column matches neither list, lowering fails at the first such column with
the plain `cannot ORDER BY expression` error, which does not wrap the
`ErrNotSupported` sentinel. -/
theorem claimC6_amended (cols : List OrderColumn) (agg : Aggregation)
    (gb : List Binding) (ob : List HashOrder) (lim : Int) (f : Op) :
    match cols.find? (fun c => (resolveOne agg gb c).isNone) with
    | some c =>
        lowerOrder cols (.HashAggregate agg gb ob lim f) =
          .error (.CannotOrderBy c.column) ∧
        Err.isNotSupported (.CannotOrderBy c.column) = false
    | none =>
        lowerOrder cols (.HashAggregate agg gb ob lim f) =
          .ok (.HashAggregate agg gb
            (ob ++ cols.map fun c => (resolveOne agg gb c).getD defaultHashOrder) lim f) := by
  have hs := resolveHashCols_spec agg gb cols
  cases hf : cols.find? (fun c => (resolveOne agg gb c).isNone) with
  | some c =>
      rw [hf] at hs
      exact ⟨by simp [lowerOrder, hs], rfl⟩
  | none =>
      rw [hf] at hs
      simp [lowerOrder, hs]

/-- Claim C7: over a non-HashAggregate upstream, literal order columns are
dropped first, then lowering fails with the duplicate-order error exactly
when two surviving columns are equivalent (so a literal duplicate never
triggers it), and when no column survives pruning the upstream is returned
unchanged with no OrderBy node. -/
theorem claimC7 (cols : List OrderColumn) (frm : Op) (h : frm.isHashAggregate = false) :
    (lowerOrder cols frm =
      if (pruneConstants cols).isEmpty then .ok frm
      else
        match findDup (pruneConstants cols) with
        | some e => .error (.DuplicateOrderBy e)
        | none => .ok (.OrderBy (pruneConstants cols) 0 0 frm)) ∧
    (∀ d ∈ pruneConstants cols, isConstOrderColumn d.node = false) ∧
    ((∀ c ∈ cols, isConstOrderColumn c.column = true) → lowerOrder cols frm = .ok frm) := by
  refine ⟨?_, ?_, ?_⟩
  · cases frm <;> simp_all [lowerOrder, Op.isHashAggregate]
  · intro d hd
    simp only [pruneConstants, List.mem_filterMap] at hd
    obtain ⟨c, _, he⟩ := hd
    by_cases hcc : isConstOrderColumn c.column = true
    · rw [if_pos hcc] at he; cases he
    · rw [if_neg hcc] at he
      cases he
      simpa using hcc
  · intro hall
    have hp : pruneConstants cols = [] := by
      simp only [pruneConstants, List.filterMap_eq_nil_iff]
      intro c hc
      simp [hall c hc]
    cases frm <;> simp_all [lowerOrder, Op.isHashAggregate, hp]

/-- Order columns with a duplicated literal around a path column; the
literal occurrences are pruned, so no duplicate error arises. -/
def exCols : List OrderColumn :=
  [{ column := .IntegerLit 1, desc := false, nullsLast := false },
   { column := .Path ["x"], desc := false, nullsLast := false },
   { column := .IntegerLit 1, desc := true, nullsLast := false }]

theorem claimC7_witness :
    lowerOrder exCols (.Leaf 0) =
      .ok (.OrderBy [{ node := .Path ["x"], desc := false, nullsLast := false }] 0 0 (.Leaf 0)) := by
  have h := (claimC7 exCols (.Leaf 0) (by decide)).1
  rw [h]; decide

theorem compact_mem : ∀ (l : List String) (s : String), s ∈ compact l ↔ s ∈ l
  | [], s => by simp [compact]
  | [_], s => by simp [compact]
  | a :: b :: rest, s => by
      by_cases hab : a = b
      · simp only [compact, if_pos hab, compact_mem (b :: rest) s]
        subst hab
        simp
      · simp only [compact, if_neg hab, List.mem_cons, compact_mem (b :: rest) s]

theorem compact_pairwise_lt :
    ∀ l : List String, l.Pairwise (· ≤ ·) → (compact l).Pairwise (· < ·)
  | [], _ => by simp [compact]
  | [t], _ => by simp [compact]
  | a :: b :: rest, h => by
      by_cases hab : a = b
      · simp only [compact, if_pos hab]
        exact compact_pairwise_lt (b :: rest) (List.pairwise_cons.mp h).2
      · simp only [compact, if_neg hab]
        refine List.Pairwise.cons ?_ (compact_pairwise_lt (b :: rest) (List.pairwise_cons.mp h).2)
        intro x hx
        rw [compact_mem] at hx
        have hab' : a < b :=
          lt_of_le_of_ne ((List.pairwise_cons.mp h).1 b (by simp)) hab
        rcases List.mem_cons.mp hx with rfl | hxr
        · exact hab'
        · exact lt_of_lt_of_le hab'
            ((List.pairwise_cons.mp (List.pairwise_cons.mp h).2).1 x hxr)

/-- The sorted, deduplicated concatenation used by `input.merge` is indeed
strictly sorted (hence duplicate-free) and preserves membership. -/
theorem sortedDedup_spec (l : List String) :
    (compact (sortStrings l)).Pairwise (· < ·) ∧
      ∀ s, s ∈ compact (sortStrings l) ↔ s ∈ l := by
  constructor
  · exact compact_pairwise_lt _ (List.sorted_insertionSort _ l)
  · intro s
    rw [compact_mem]
    exact (List.perm_insertionSort _ l).mem_iff

theorem merge_isSome_iff (i j : input) :
    (input.merge i j).isSome ↔ (i.table = j.table ∧ i.hints.filter = j.hints.filter) := by
  constructor
  · intro h
    by_cases h1 : i.table = j.table
    · by_cases h2 : i.hints.filter = j.hints.filter
      · exact ⟨h1, h2⟩
      · simp [input.merge, Table.Equals, exprEqual, h1, h2] at h
    · simp [input.merge, Table.Equals, h1] at h
  · rintro ⟨h1, h2⟩
    by_cases hA : i.hints.allFields = true <;> by_cases hB : j.hints.allFields = true <;>
      simp [input.merge, Table.Equals, exprEqual, h1, h2, hA, hB]

theorem merge_eq_some (i j m : input) (h : input.merge i j = some m) :
    m.handle = none ∧ m.table = i.table ∧ m.hints.filter = i.hints.filter ∧
    (i.hints.allFields = true →
        m.hints.allFields = true ∧ m.hints.fields = i.hints.fields) ∧
    (i.hints.allFields = false → j.hints.allFields = true →
        m.hints.allFields = true ∧ m.hints.fields = []) ∧
    (i.hints.allFields = false → j.hints.allFields = false →
        m.hints.allFields = false ∧
        m.hints.fields = compact (sortStrings (i.hints.fields ++ j.hints.fields))) := by
  by_cases h1 : i.table = j.table
  · by_cases h2 : i.hints.filter = j.hints.filter
    · by_cases hA : i.hints.allFields <;> by_cases hB : j.hints.allFields <;>
        (simp [input.merge, Table.Equals, exprEqual, h1, h2, hA, hB] at h;
         subst h; simp_all)
    · simp [input.merge, Table.Equals, exprEqual, h1, h2] at h
  · simp [input.merge, Table.Equals, h1] at h

/-- An all-fields interned input that nonetheless carries a field list. -/
def exIn1 : input :=
  { table := exTableT,
    hints := { filter := none, fields := ["x"], allFields := true },
    handle := none }

/-- A plain interned input over the same table. -/
def exIn2 : input :=
  { table := exTableT,
    hints := { filter := none, fields := [], allFields := false },
    handle := none }

/-- Claim C3 counterexample: merging into a receiver that has all-fields
set leaves its field set untouched, so the merged receiver does not get an
empty field set as the claim states for every pair with all-fields on
either side. -/
theorem claimC3_counterexample :
    exIn1.hints.allFields = true ∧
    (input.merge exIn1 exIn2).map (fun m => m.hints.fields) = some ["x"] ∧
    ["x"] ≠ ([] : List String) := by
  refine ⟨rfl, rfl, by decide⟩

/-- Claim C3 (amended): merge succeeds exactly when the table expressions
and the filter predicates are structurally equal; every successful merge
sets the cached handle of the receiver to absent; when the receiver already
has all-fields its hints are left unchanged (its field set is not cleared);
when only the other side has all-fields the receiver becomes all-fields
with an empty field set; otherwise the merged field set is the sorted,
deduplicated concatenation of the two field sets, which is strictly sorted,
duplicate-free, and preserves membership. -/
theorem claimC3_amended :
    (∀ i j : input, (input.merge i j).isSome ↔
        (i.table = j.table ∧ i.hints.filter = j.hints.filter)) ∧
    (∀ i j m : input, input.merge i j = some m →
        m.handle = none ∧ m.table = i.table ∧ m.hints.filter = i.hints.filter ∧
        (i.hints.allFields = true →
            m.hints.allFields = true ∧ m.hints.fields = i.hints.fields) ∧
        (i.hints.allFields = false → j.hints.allFields = true →
            m.hints.allFields = true ∧ m.hints.fields = []) ∧
        (i.hints.allFields = false → j.hints.allFields = false →
            m.hints.allFields = false ∧
            m.hints.fields = compact (sortStrings (i.hints.fields ++ j.hints.fields)))) ∧
    (∀ l : List String, (compact (sortStrings l)).Pairwise (· < ·) ∧
        ∀ s, s ∈ compact (sortStrings l) ↔ s ∈ l) :=
  ⟨merge_isSome_iff, merge_eq_some, sortedDedup_spec⟩

/-- An interned input with one field hint and a cached handle. -/
def exIn3 : input :=
  { table := exTableT,
    hints := { filter := none, fields := ["b"], allFields := false },
    handle := some (.base 5) }

/-- An interned input over the same table with no field hints. -/
def exIn4 : input :=
  { table := exTableT,
    hints := { filter := none, fields := [], allFields := false },
    handle := none }

/-- The merge of `exIn3` and `exIn4`: handle invalidated, field hints
unioned. -/
def exIn34 : input :=
  { table := exTableT,
    hints := { filter := none, fields := ["b"], allFields := false },
    handle := none }

theorem putAux_none (fresh : input) :
    ∀ l : List input, putAux fresh l = none → ∀ i ∈ l, input.merge i fresh = none
  | [], _ => by simp
  | i :: rest, h => by
      intro x hx
      simp only [putAux] at h
      cases hm : input.merge i fresh with
      | some i' => simp [hm] at h
      | none =>
          simp only [hm] at h
          cases hp : putAux fresh rest with
          | some p => obtain ⟨n, rest'⟩ := p; simp [hp] at h
          | none =>
              rcases List.mem_cons.mp hx with rfl | hxr
              · exact hm
              · exact putAux_none fresh rest hp x hxr

theorem putAux_some (fresh : input) :
    ∀ (l : List input) (n : Nat) (l' : List input), putAux fresh l = some (n, l') →
      ∃ i m, l[n]? = some i ∧ input.merge i fresh = some m ∧ l' = l.set n m ∧
        ∀ j ∈ l.take n, input.merge j fresh = none
  | [], n, l', h => by simp [putAux] at h
  | i :: rest, n, l', h => by
      simp only [putAux] at h
      cases hm : input.merge i fresh with
      | some i' =>
          rw [hm] at h
          cases h
          exact ⟨i, i', by simp, hm, by simp, by simp⟩
      | none =>
          rw [hm] at h
          cases hp : putAux fresh rest with
          | some p =>
              obtain ⟨n', rest'⟩ := p
              rw [hp] at h
              cases h
              obtain ⟨i0, m, hget, hmg, hset, htake⟩ := putAux_some fresh rest n' rest' hp
              refine ⟨i0, m, by simpa using hget, hmg, by simp [hset], ?_⟩
              intro j hj
              rw [List.take_succ_cons] at hj
              rcases List.mem_cons.mp hj with rfl | hxr
              · exact hm
              · exact htake j hxr
          | none => rw [hp] at h; cases h

theorem internedOK_set :
    ∀ (l : List input) (n : Nat) (i m : input), internedOK l → l[n]? = some i →
      m.table = i.table → m.hints.filter = i.hints.filter → internedOK (l.set n m)
  | [], n, i, m, _, hg, _, _ => by simp at hg
  | a :: rest, 0, i, m, hok, hg, ht, hf => by
      simp only [List.getElem?_cons_zero, Option.some.injEq] at hg
      subst hg
      simp only [List.set_cons_zero]
      rw [internedOK, List.pairwise_cons] at hok ⊢
      refine ⟨?_, hok.2⟩
      intro b hb hmb
      exact hok.1 b hb ⟨ht.symm.trans hmb.1, hf.symm.trans hmb.2⟩
  | a :: rest, n + 1, i, m, hok, hg, ht, hf => by
      simp only [List.getElem?_cons_succ] at hg
      rw [List.set_cons_succ]
      rw [internedOK, List.pairwise_cons] at hok ⊢
      refine ⟨?_, internedOK_set rest n i m hok.2 hg ht hf⟩
      intro b hb
      rcases List.mem_or_eq_of_mem_set hb with hb' | rfl
      · exact hok.1 b hb'
      · have hi : i ∈ rest := List.getElem?_mem hg
        intro hmb
        exact hok.1 i hi ⟨hmb.1.trans ht, hmb.2.trans hf⟩

theorem internedOK_append (l : List input) (fresh : input) (hok : internedOK l)
    (hnone : ∀ j ∈ l, ¬ mergeable j fresh) : internedOK (l ++ [fresh]) := by
  rw [internedOK, List.pairwise_append]
  refine ⟨hok, List.pairwise_singleton _ _, ?_⟩
  intro a ha b hb
  rw [List.mem_singleton] at hb
  subst hb
  exact hnone a ha

/-- The behavior of `walker.put`: all entries before the returned index
reject the fresh input; the returned index either carries the first entry
accepting the merge (replaced in place by the merged entry) or equals the
input-list length with the fresh input appended. -/
theorem put_spec (w : walker) (it : IterTable) :
    (∀ j ∈ w.inputs.take (w.put it).1, input.merge j (freshInput it) = none) ∧
    ((∃ i m, w.inputs[(w.put it).1]? = some i ∧
         input.merge i (freshInput it) = some m ∧
         (w.put it).2.inputs = w.inputs.set (w.put it).1 m) ∨
     ((w.put it).1 = w.inputs.length ∧
      (w.put it).2.inputs = w.inputs ++ [freshInput it])) := by
  unfold walker.put
  cases hp : putAux (freshInput it) w.inputs with
  | some p =>
      obtain ⟨n, l'⟩ := p
      obtain ⟨i, m, hget, hmg, hset, htake⟩ := putAux_some _ _ _ _ hp
      exact ⟨htake, .inl ⟨i, m, hget, hmg, hset⟩⟩
  | none =>
      refine ⟨?_, .inr ⟨rfl, rfl⟩⟩
      intro j hj
      rw [List.take_length] at hj
      exact putAux_none _ _ hp j hj

/-- `walker.put` preserves the interning invariant: a merged entry keeps
its table and filter, and a fresh entry is appended only when it is not
mergeable with any existing entry. -/
theorem put_internedOK (w : walker) (it : IterTable) (hok : internedOK w.inputs) :
    internedOK ((w.put it).2.inputs) := by
  unfold walker.put
  cases hp : putAux (freshInput it) w.inputs with
  | some p =>
      obtain ⟨n, l'⟩ := p
      obtain ⟨i, m, hget, hmg, hset, _⟩ := putAux_some _ _ _ _ hp
      have hm := merge_eq_some _ _ _ hmg
      simp only [hset]
      exact internedOK_set _ _ _ _ hok hget hm.2.1 hm.2.2.1
  | none =>
      refine internedOK_append _ _ hok ?_
      intro j hj hmg
      have hn := putAux_none _ _ hp j hj
      have h2 := (merge_isSome_iff j (freshInput it)).mpr hmg
      rw [hn] at h2
      cases h2

theorem stat_preserves (i : input) (env : Env) (th : TableHandle) (i' : input)
    (h : input.stat i env = .ok (th, i')) : i'.table = i.table ∧ i'.hints = i.hints := by
  unfold input.stat at h
  cases hh : i.handle with
  | some t0 => rw [hh] at h; cases h; exact ⟨rfl, rfl⟩
  | none =>
      rw [hh] at h
      cases he : env.statFn i.table.e i.hints with
      | error e => rw [he] at h; cases h
      | ok t1 => rw [he] at h; cases h; exact ⟨rfl, rfl⟩

theorem statAt_internedOK (w : walker) (ix : Nat) (th : TableHandle) (w' : walker)
    (hok : internedOK w.inputs) (h : w.statAt ix = .ok (th, w')) :
    internedOK w'.inputs := by
  unfold walker.statAt at h
  cases hg : w.inputs[ix]? with
  | none => rw [hg] at h; cases h
  | some i =>
      rw [hg] at h
      dsimp only at h
      cases hs : input.stat i w.env with
      | error e => rw [hs] at h; cases h
      | ok p =>
          obtain ⟨th', i'⟩ := p
          rw [hs] at h
          cases h
          have hp := stat_preserves _ _ _ _ hs
          exact internedOK_set _ _ _ _ hok hg hp.1 (by rw [hp.2])

/-- `walker.walkBuild` preserves the interning invariant of the walker
scope: the scope is only modified by `put` and by handle caching. -/
theorem walkBuild_internedOK :
    ∀ (s : Step) (w : walker) (op : Op) (w' : walker), internedOK w.inputs →
      walker.walkBuild w s = .ok (op, w') → internedOK w'.inputs := by
  intro s
  induction s with
  | IterTableS it =>
      intro w op w' hok h
      simp only [walker.walkBuild] at h
      cases h
      exact put_internedOK w it hok
  | NoOutputS =>
      intro w op w' hok h
      simp only [walker.walkBuild] at h
      cases h
      exact hok
  | DummyOutputS =>
      intro w op w' hok h
      simp only [walker.walkBuild] at h
      cases h
      exact hok
  | UnionMapS inner childFinal ih =>
      intro w op w' hok h
      simp only [walker.walkBuild] at h
      cases hw : walker.walkBuild (w.put inner).2 childFinal with
      | error e => rw [hw] at h; cases h
      | ok p =>
          obtain ⟨sub, w2⟩ := p
          rw [hw] at h
          dsimp only at h
          cases hst : w2.statAt (w.put inner).1 with
          | error e => rw [hst] at h; cases h
          | ok q =>
              obtain ⟨handle, w3⟩ := q
              rw [hst] at h
              dsimp only at h
              cases hds : doSplit w3.split inner.table.e handle with
              | error e => rw [hds] at h; cases h
              | ok tbls =>
                  rw [hds] at h
                  have h2 := put_internedOK w inner hok
                  have h3 := ih (w.put inner).2 sub w2 h2 hw
                  have h4 := statAt_internedOK w2 (w.put inner).1 handle w3 h3 hst
                  have h5 : (if tbls.length = 0 then (Except.ok (Op.NoOutput, w3) : Except Err (Op × walker))
                      else .ok (.UnionMap (w.put inner).1 tbls sub, w3)) = .ok (op, w') := h
                  by_cases hz : tbls.length = 0
                  · rw [if_pos hz] at h5
                    cases h5
                    exact h4
                  · rw [if_neg hz] at h5
                    cases h5
                    exact h4
  | IterValueS iv par ih =>
      intro w op w' hok h
      simp only [walker.walkBuild] at h
      cases hw : walker.walkBuild w par with
      | error e => rw [hw] at h; cases h
      | ok p =>
          obtain ⟨inp, wmid⟩ := p
          rw [hw] at h
          dsimp only at h
          cases hl : lowerIterValue iv inp with
          | error e => rw [hl] at h; cases h
          | ok o => rw [hl] at h; cases h; exact ih w inp _ hok hw
  | FilterS whereE par ih =>
      intro w op w' hok h
      simp only [walker.walkBuild] at h
      cases hw : walker.walkBuild w par with
      | error e => rw [hw] at h; cases h
      | ok p =>
          obtain ⟨inp, wmid⟩ := p
          rw [hw] at h
          dsimp only at h
          cases hl : lowerFilter whereE inp with
          | error e => rw [hl] at h; cases h
          | ok o => rw [hl] at h; cases h; exact ih w inp _ hok hw
  | DistinctS columns par ih =>
      intro w op w' hok h
      simp only [walker.walkBuild] at h
      cases hw : walker.walkBuild w par with
      | error e => rw [hw] at h; cases h
      | ok p =>
          obtain ⟨inp, wmid⟩ := p
          rw [hw] at h
          dsimp only at h
          cases hl : lowerDistinct columns inp with
          | error e => rw [hl] at h; cases h
          | ok o => rw [hl] at h; cases h; exact ih w inp _ hok hw
  | BindS bindings par ih =>
      intro w op w' hok h
      simp only [walker.walkBuild] at h
      cases hw : walker.walkBuild w par with
      | error e => rw [hw] at h; cases h
      | ok p =>
          obtain ⟨inp, wmid⟩ := p
          rw [hw] at h
          dsimp only at h
          cases hl : lowerBind bindings inp with
          | error e => rw [hl] at h; cases h
          | ok o => rw [hl] at h; cases h; exact ih w inp _ hok hw
  | AggregateS agg groupBy par ih =>
      intro w op w' hok h
      simp only [walker.walkBuild] at h
      cases hw : walker.walkBuild w par with
      | error e => rw [hw] at h; cases h
      | ok p =>
          obtain ⟨inp, wmid⟩ := p
          rw [hw] at h
          dsimp only at h
          cases hl : lowerAggregate agg groupBy inp with
          | error e => rw [hl] at h; cases h
          | ok o => rw [hl] at h; cases h; exact ih w inp _ hok hw
  | LimitS count offset par ih =>
      intro w op w' hok h
      simp only [walker.walkBuild] at h
      cases hw : walker.walkBuild w par with
      | error e => rw [hw] at h; cases h
      | ok p =>
          obtain ⟨inp, wmid⟩ := p
          rw [hw] at h
          dsimp only at h
          cases hl : (lowerLimit count offset inp).2 with
          | error e => rw [hl] at h; cases h
          | ok o => rw [hl] at h; cases h; exact ih w inp _ hok hw
  | OrderS columns par ih =>
      intro w op w' hok h
      simp only [walker.walkBuild] at h
      cases hw : walker.walkBuild w par with
      | error e => rw [hw] at h; cases h
      | ok p =>
          obtain ⟨inp, wmid⟩ := p
          rw [hw] at h
          dsimp only at h
          cases hl : lowerOrder columns inp with
          | error e => rw [hl] at h; cases h
          | ok o => rw [hl] at h; cases h; exact ih w inp _ hok hw
  | OutputIndexS tableE basename par ih =>
      intro w op w' hok h
      simp only [walker.walkBuild] at h
      cases hw : walker.walkBuild w par with
      | error e => rw [hw] at h; cases h
      | ok p =>
          obtain ⟨inp, wmid⟩ := p
          rw [hw] at h
          dsimp only at h
          cases hl : lowerOutputIndex tableE basename w.env inp with
          | error e => rw [hl] at h; cases h
          | ok o => rw [hl] at h; cases h; exact ih w inp _ hok hw
  | OutputPartS basename par ih =>
      intro w op w' hok h
      simp only [walker.walkBuild] at h
      cases hw : walker.walkBuild w par with
      | error e => rw [hw] at h; cases h
      | ok p =>
          obtain ⟨inp, wmid⟩ := p
          rw [hw] at h
          dsimp only at h
          cases hl : lowerOutputPart basename w.env inp with
          | error e => rw [hl] at h; cases h
          | ok o => rw [hl] at h; cases h; exact ih w inp _ hok hw

/-- `walker.toNode` preserves the interning invariant of the caller scope:
the scope passed onward is the one mutated by `walkBuild` on the final
step; the sub-traces are lowered in a fresh scope of their own. -/
theorem toNode_internedOK (w : walker) (tr : Trace) (n : Node) (w' : walker)
    (hok : internedOK w.inputs) (h : walker.toNode w tr = .ok (n, w')) :
    internedOK w'.inputs := by
  obtain ⟨final, repls, fb, t⟩ := tr
  simp only [walker.toNode] at h
  cases hw : walker.walkBuild w final with
  | error e => rw [hw] at h; cases h
  | ok p =>
      obtain ⟨op, wmid⟩ := p
      rw [hw] at h
      dsimp only at h
      cases hnl : walker.toNodeList { env := w.env, split := w.split, inputs := [] } repls with
      | error e => rw [hnl] at h; cases h
      | ok q =>
          obtain ⟨children, sub'⟩ := q
          rw [hnl] at h
          dsimp only at h
          cases hf : sub'.finish with
          | error e => rw [hf] at h; cases h
          | ok inputs =>
              rw [hf] at h
              cases h
              exact walkBuild_internedOK final w op _ hok hw

/-- Claim C2: `put` scans the walker input list in order and returns the
index of the first existing input whose `merge` accepts the fresh table
reference, appending a fresh input at index `len(inputs)` only when none
accepts; consequently the interning invariant (no two entries with both
structurally equal tables and structurally equal filters) is preserved by
`put`, by the whole step lowering, and by the node builder, and it holds in
every finished scope since each scope starts empty. -/
theorem claimC2 :
    (∀ (w : walker) (it : IterTable),
        (∀ j ∈ w.inputs.take (w.put it).1, input.merge j (freshInput it) = none) ∧
        ((∃ i m, w.inputs[(w.put it).1]? = some i ∧
             input.merge i (freshInput it) = some m ∧
             (w.put it).2.inputs = w.inputs.set (w.put it).1 m) ∨
         ((w.put it).1 = w.inputs.length ∧
          (w.put it).2.inputs = w.inputs ++ [freshInput it]))) ∧
    (∀ (w : walker) (it : IterTable), internedOK w.inputs →
        internedOK ((w.put it).2.inputs)) ∧
    (∀ (s : Step) (w : walker) (op : Op) (w' : walker), internedOK w.inputs →
        walker.walkBuild w s = .ok (op, w') → internedOK w'.inputs) ∧
    (∀ (w : walker) (tr : Trace) (n : Node) (w' : walker), internedOK w.inputs →
        walker.toNode w tr = .ok (n, w') → internedOK w'.inputs) :=
  ⟨put_spec, put_internedOK, walkBuild_internedOK, toNode_internedOK⟩

/-- The walker produced by lowering a union-map whose child scans the same
table: interning merges the two references into one entry. -/
def exWC2 : walker :=
  match walker.walkBuild { env := exEnv, split := exSplit, inputs := [] }
      (.UnionMapS exItT (.IterTableS exItT)) with
  | .ok (_, w) => w
  | .error _ => { env := exEnv, split := exSplit, inputs := [] }

/-- The operator produced in the same scenario. -/
def exOpC2 : Op :=
  match walker.walkBuild { env := exEnv, split := exSplit, inputs := [] }
      (.UnionMapS exItT (.IterTableS exItT)) with
  | .ok (op, _) => op
  | .error _ => .NoOutput

theorem claimC2_witness : internedOK exWC2.inputs ∧ exWC2.inputs.length = 1 :=
  ⟨claimC2.2.2.1 (.UnionMapS exItT (.IterTableS exItT))
      { env := exEnv, split := exSplit, inputs := [] } exOpC2 exWC2 (by decide) rfl,
   by decide⟩

/-- Formalization of the claim C8 description of compound-handle splitting,
written from the claim words: the splitter is invoked once per sub-handle
with the same table expression and the per-sub-handle results are appended
in order, stopping at the first error. -/
def splitEach (s : Splitter) (tbl : Expr) : List TableHandle → Except Err Subtables
  | [] => .ok []
  | h :: rest =>
      match s tbl h with
      | .error e => .error e
      | .ok sub =>
          match splitEach s tbl rest with
          | .error e => .error e
          | .ok out => .ok (sub ++ out)

theorem doSplit_flat (s : Splitter) (tbl : Expr) :
    ∀ hs : List TableHandle, (∀ h ∈ hs, TableHandle.isBase h = true) →
      doSplit s tbl (.compound hs) = splitEach s tbl hs
  | [], _ => by simp [doSplit, doSplitList, splitEach]
  | h :: rest, hb => by
      have hh : TableHandle.isBase h = true := hb h (by simp)
      have hr := doSplit_flat s tbl rest fun x hx => hb x (by simp [hx])
      have hone : doSplit s tbl h = s tbl h := by
        cases h with
        | base id => rfl
        | compound hs' => simp [TableHandle.isBase] at hh
      simp only [doSplit, doSplitList, splitEach]
      rw [← hone]
      rw [show doSplitList s tbl rest = splitEach s tbl rest from hr ▸ rfl]

/-- Claim C8: a non-compound handle is passed to the splitter exactly once;
a compound handle is split member-wise with the same table expression, the
per-member results appended in order; for a compound of non-compound
sub-handles this is one splitter invocation per sub-handle; and whenever
the split of the statted handle yields zero subtables the union-map
lowering returns NoOutput instead of a UnionMap operator, and otherwise a
UnionMap whose orig is the interned input index. -/
theorem claimC8 :
    (∀ (s : Splitter) (tbl : Expr) (th : TableHandle), th.isBase = true →
        doSplit s tbl th = s tbl th) ∧
    (∀ (s : Splitter) (tbl : Expr) (h : TableHandle) (hs : List TableHandle),
        doSplit s tbl (.compound (h :: hs)) =
          match doSplit s tbl h with
          | .error e => .error e
          | .ok sub =>
              match doSplit s tbl (.compound hs) with
              | .error e => .error e
              | .ok out => .ok (sub ++ out)) ∧
    (∀ (s : Splitter) (tbl : Expr) (hs : List TableHandle),
        (∀ h ∈ hs, TableHandle.isBase h = true) →
        doSplit s tbl (.compound hs) = splitEach s tbl hs) ∧
    (∀ (w : walker) (inner : IterTable) (childFinal : Step) (sub : Op)
        (w2 : walker) (handle : TableHandle) (w3 : walker) (tbls : Subtables),
        walker.walkBuild (w.put inner).2 childFinal = .ok (sub, w2) →
        w2.statAt (w.put inner).1 = .ok (handle, w3) →
        doSplit w3.split inner.table.e handle = .ok tbls →
        walker.lowerUnionMap w inner childFinal =
          if tbls.length = 0 then .ok (.NoOutput, w3)
          else .ok (.UnionMap (w.put inner).1 tbls sub, w3)) := by
  refine ⟨?_, ?_, doSplit_flat, ?_⟩
  · intro s tbl th hb
    cases th with
    | base id => rfl
    | compound hs => simp [TableHandle.isBase] at hb
  · intro s tbl h hs
    rfl
  · intro w inner childFinal sub w2 handle w3 tbls h1 h2 h3
    simp only [walker.lowerUnionMap, walker.walkBuild, h1, h2, h3]

/-- An environment that stats every table to a compound handle of two base
sub-handles. -/
def exEnvC : Env :=
  { statFn := fun _ _ => .ok (.compound [.base 1, .base 2]), upload := none }

/-- A splitter yielding the singleton subtable list of the handle id for a
base handle and nothing for a compound handle. -/
def exSplitC : Splitter := fun _ th =>
  match th with
  | .base i => .ok [i]
  | .compound _ => .ok []

/-- The walker state after interning, building the child, and statting the
compound handle in the claim C8 witness scenario. -/
def exW3 : walker :=
  { env := exEnvC, split := exSplitC,
    inputs := [{ table := exTableT,
                 hints := { filter := none, fields := [], allFields := false },
                 handle := some (.compound [.base 1, .base 2]) }] }

theorem claimC8_witness :
    doSplit exSplitC exTableT.e (.compound [.base 1, .base 2]) =
        splitEach exSplitC exTableT.e [.base 1, .base 2] ∧
    walker.lowerUnionMap { env := exEnvC, split := exSplitC, inputs := [] }
        exItT .NoOutputS = .ok (.UnionMap 0 [1, 2] .NoOutput, exW3) := by
  constructor
  · exact claimC8.2.2.1 exSplitC exTableT.e [.base 1, .base 2] (by decide)
  · have h := claimC8.2.2.2 { env := exEnvC, split := exSplitC, inputs := [] }
      exItT .NoOutputS .NoOutput
      ({ env := exEnvC, split := exSplitC, inputs := [freshInput exItT] })
      (.compound [.base 1, .base 2]) exW3 [1, 2] rfl rfl rfl
    simpa using h

/-- A sub-trace scanning table `u` with no further sub-traces. -/
def exTrU : Trace := .mk (.IterTableS exItU) [] [] fun _ => 0

/-- A trace scanning table `t` with two identical correlated sub-traces
over table `u`. -/
def exTrTop : Trace := .mk (.IterTableS exItT) [exTrU, exTrU] [] fun _ => 0

/-- Claim C1 counterexample: on a trace with two sibling sub-traces over
the same table, the source builder interns both siblings in one shared
scope (the parent node ends with a single input entry and both child
operators reference leaf index 0), while the claimed per-sub-trace
interning would finalize two entries; the two builders disagree. -/
theorem claimC1_counterexample :
    toTree exTrTop exEnv exSplit ≠ toTreePerSub exTrTop exEnv exSplit ∧
    (toTree exTrTop exEnv exSplit).map (fun t => t.root.inputs.length) = .ok 1 ∧
    (toTreePerSub exTrTop exEnv exSplit).map (fun t => t.root.inputs.length) = .ok 2 ∧
    (toTree exTrTop exEnv exSplit).map (fun t => t.root.children.map Node.op) =
      .ok [.Leaf 0, .Leaf 0] := by
  refine ⟨?_, by rfl, by rfl, by rfl⟩
  intro h
  have h2 := congrArg (Except.map fun t : Tree => t.root.inputs.length) h
  exact absurd h2 (by decide)

/-- Claim C1 (amended): `toNode` lowers all correlated
sub-traces in a single fresh walker scope shared among the siblings; that
scope starts empty and is built only from the environment and splitter of
the caller, so no interning flows between it and the caller scope, and the
children and the finalized node inputs are independent of the caller
scope's interned inputs; sibling sub-traces do share interning inside that
one scope. -/
theorem claimC1_amended (w₁ w₂ : walker) (tr : Trace) (n₁ n₂ : Node) (w₁' w₂' : walker)
    (henv : w₁.env = w₂.env) (hsplit : w₁.split = w₂.split)
    (h₁ : walker.toNode w₁ tr = .ok (n₁, w₁'))
    (h₂ : walker.toNode w₂ tr = .ok (n₂, w₂')) :
    n₁.children = n₂.children ∧ n₁.inputs = n₂.inputs := by
  obtain ⟨final, repls, fb, t⟩ := tr
  simp only [walker.toNode] at h₁ h₂
  rw [henv, hsplit] at h₁
  cases hb₁ : walker.walkBuild w₁ final with
  | error e => rw [hb₁] at h₁; cases h₁
  | ok p₁ =>
      obtain ⟨op₁, wmid₁⟩ := p₁
      rw [hb₁] at h₁
      dsimp only at h₁
      cases hb₂ : walker.walkBuild w₂ final with
      | error e => rw [hb₂] at h₂; cases h₂
      | ok p₂ =>
          obtain ⟨op₂, wmid₂⟩ := p₂
          rw [hb₂] at h₂
          dsimp only at h₂
          cases hnl : walker.toNodeList
              { env := w₂.env, split := w₂.split, inputs := [] } repls with
          | error e => rw [hnl] at h₁; cases h₁
          | ok q =>
              obtain ⟨children, sub'⟩ := q
              rw [hnl] at h₁ h₂
              dsimp only at h₁ h₂
              cases hf : sub'.finish with
              | error e => rw [hf] at h₁; cases h₁
              | ok inputs =>
                  rw [hf] at h₁ h₂
                  dsimp only at h₁ h₂
                  cases h₁
                  cases h₂
                  exact ⟨rfl, rfl⟩

/-- The empty-scope walker over the shared example environment. -/
def exWalkerA : walker := { env := exEnv, split := exSplit, inputs := [] }

/-- A walker over the same environment whose scope already interned
table `t`. -/
def exWalkerB : walker := { env := exEnv, split := exSplit, inputs := [freshInput exItT] }

/-- The node built from the empty-scope walker in the claim C1 witness. -/
def exNodeA : Node :=
  match walker.toNode exWalkerA exTrTop with
  | .ok (n, _) => n
  | .error _ => .mk .NoOutput [] [] []

/-- The walker returned alongside `exNodeA`. -/
def exWalkerA2 : walker :=
  match walker.toNode exWalkerA exTrTop with
  | .ok (_, w) => w
  | .error _ => exWalkerA

/-- The node built from the pre-populated walker in the claim C1 witness. -/
def exNodeB : Node :=
  match walker.toNode exWalkerB exTrTop with
  | .ok (n, _) => n
  | .error _ => .mk .NoOutput [] [] []

/-- The walker returned alongside `exNodeB`. -/
def exWalkerB2 : walker :=
  match walker.toNode exWalkerB exTrTop with
  | .ok (_, w) => w
  | .error _ => exWalkerB

theorem claimC1_amended_witness :
    exNodeA.children = exNodeB.children ∧ exNodeA.inputs = exNodeB.inputs :=
  claimC1_amended exWalkerA exWalkerB exTrTop exNodeA exNodeB exWalkerA2 exWalkerB2
    rfl rfl rfl rfl

theorem claimC3_amended_witness :
    exIn34.handle = none ∧ exIn34.table = exIn3.table ∧
    exIn34.hints.filter = exIn3.hints.filter ∧
    (exIn3.hints.allFields = true →
        exIn34.hints.allFields = true ∧ exIn34.hints.fields = exIn3.hints.fields) ∧
    (exIn3.hints.allFields = false → exIn4.hints.allFields = true →
        exIn34.hints.allFields = true ∧ exIn34.hints.fields = []) ∧
    (exIn3.hints.allFields = false → exIn4.hints.allFields = false →
        exIn34.hints.allFields = false ∧
        exIn34.hints.fields = compact (sortStrings (exIn3.hints.fields ++ exIn4.hints.fields))) :=
  claimC3_amended.2.1 exIn3 exIn4 exIn34 (by decide)

end PlanLower
